import Mathlib

/-!
Verification of the mesh-building core of the polytope viewer:
`triangulateFaces` (fan triangulation with per-face material groups) and
the edge extraction inside `updatePolytopeMesh` (canonical min/max
deduplication), shallowly embedded from the JavaScript source.
-/

namespace Viewer

/-- A JavaScript value appearing inside a face's index list: either a
number (modelled as an integer index) or any non-numeric value (the code
only ever tests `typeof v === 'number'`, so all non-numbers behave alike). -/
inductive JSVal where
  | num (n : Int)
  | nonNum
deriving DecidableEq, Repr

/-- A face entry of the input list: `none` models a missing or
non-sequence entry, `some l` an array of values. -/
abbrev Face := Option (List JSVal)

/-- A geometry group record `{start, count, materialIndex}` as pushed by
`triangulateFaces`. -/
structure Group where
  start : Nat
  count : Nat
  materialIndex : Nat
deriving DecidableEq, Repr

/-- The mutable state of `triangulateFaces`: the index buffer being built,
the group list, the running offset `vertexIndexOffset` and the material
slot counter `validMaterialIndex`. -/
structure TriState where
  triangulatedIndices : List Int
  geometryGroups : List Group
  vertexIndexOffset : Nat
  validMaterialIndex : Nat
deriving DecidableEq, Repr

/-- The value returned by `triangulateFaces`: `{indices, groups}`. -/
structure TriResult where
  indices : List Int
  groups : List Group
deriving DecidableEq, Repr

/-- The inner fan loop of `triangulateFaces` over the tail of the face:
for consecutive entries `v1, v2` of the tail it emits `(v0, v1, v2)` when
all three are numbers and skips the triangle otherwise (`continue`). -/
def fanTris (v0 : JSVal) : List JSVal → List (Int × Int × Int)
  | a :: b :: rest =>
    match v0, a, b with
    | .num n0, .num n1, .num n2 => (n0, n1, n2) :: fanTris v0 (b :: rest)
    | _, _, _ => fanTris v0 (b :: rest)
  | _ => []

/-- The valid triangles emitted for one face: `v0` is `face[0]` and the
fan loop walks `face[i], face[i+1]` for `i = 1 .. length-2`. -/
def faceTriangles : List JSVal → List (Int × Int × Int)
  | v0 :: tail => fanTris v0 tail
  | [] => []

/-- Flattens one triangle into the three indices pushed by
`triangulatedIndices.push(v0, v1, v2)`. -/
def triFlat (t : Int × Int × Int) : List Int := [t.1, t.2.1, t.2.2]

/-- Processing of one entry of `originalFacesData` by the `forEach` body:
missing / non-array / short faces are skipped; otherwise the fan loop
pushes its triangles and, if at least one was added, a group record is
appended and the material slot counter advances. -/
def processFace (st : TriState) (face : Face) : TriState :=
  match face with
  | none => st
  | some f =>
    if f.length < 3 then st
    else
      let groupStartIndex := st.vertexIndexOffset
      let tris := faceTriangles f
      let st' : TriState :=
        { st with
          triangulatedIndices := st.triangulatedIndices ++ tris.flatMap triFlat,
          vertexIndexOffset := st.vertexIndexOffset + 3 * tris.length }
      if 0 < tris.length then
        { st' with
          geometryGroups :=
            st'.geometryGroups ++
              [⟨groupStartIndex, 3 * tris.length, st.validMaterialIndex⟩],
          validMaterialIndex := st.validMaterialIndex + 1 }
      else st'

/-- The final state of `triangulateFaces` after the `forEach` over all faces. -/
def triangulateState (faces : List Face) : TriState :=
  faces.foldl processFace ⟨[], [], 0, 0⟩

/-- `triangulateFaces`: returns `{indices: triangulatedIndices, groups:
geometryGroups}`. -/
def triangulateFaces (faces : List Face) : TriResult :=
  ⟨(triangulateState faces).triangulatedIndices,
   (triangulateState faces).geometryGroups⟩

/-- The cyclic vertex pairs `(face[i], face[(i+1) % length])` for
`i = 0 .. length-1` walked by the edge-extraction loop. -/
def cyclicPairs : List JSVal → List (JSVal × JSVal)
  | [] => []
  | v :: t => (v :: t).zip (t ++ [v])

/-- The state of the edge extraction: the flat `edgeIndices` buffer and the
`uniqueEdges` deduplication set, modelled as the list of canonical
`(min, max)` keys in insertion order (the JS string key `min + '_' + max`
determines and is determined by this pair). -/
structure EdgeState where
  edgeIndices : List Int
  uniqueEdges : List (Int × Int)
deriving DecidableEq, Repr

/-- One step of the edge loop: non-numeric endpoints are skipped
(`continue`); otherwise the canonical key is looked up in the set and, on
a miss, `(idx1, idx2)` is pushed in its original orientation and the key
is added. -/
def edgeStep (st : EdgeState) (p : JSVal × JSVal) : EdgeState :=
  match p with
  | (.num idx1, .num idx2) =>
    let edgeKey := (min idx1 idx2, max idx1 idx2)
    if edgeKey ∈ st.uniqueEdges then st
    else ⟨st.edgeIndices ++ [idx1, idx2], st.uniqueEdges ++ [edgeKey]⟩
  | _ => st

/-- Processing of one face by the edge-extraction `forEach`: faces that
are missing or have fewer than 2 entries are skipped, otherwise the cyclic
pairs are walked in order. -/
def processEdgeFace (st : EdgeState) : Face → EdgeState
  | none => st
  | some f => if f.length < 2 then st else (cyclicPairs f).foldl edgeStep st

/-- The edge extraction of `updatePolytopeMesh`, run over the original
(non-triangulated) face lists. -/
def extractEdges (faces : List Face) : EdgeState :=
  faces.foldl processEdgeFace ⟨[], []⟩

example :
    triangulateFaces [some [.num 0, .num 1, .num 2, .num 3]] =
      ⟨[0, 1, 2, 0, 2, 3], [⟨0, 6, 0⟩]⟩ := by decide

example : triangulateFaces [some [.num 0, .nonNum, .num 2]] = ⟨[], []⟩ := by
  decide

example :
    extractEdges [some [.num 0, .num 1, .num 2], some [.num 2, .num 1, .num 3]] =
      ⟨[0, 1, 1, 2, 2, 0, 1, 3, 3, 2], [(0, 1), (1, 2), (0, 2), (1, 3), (2, 3)]⟩ := by
  decide

/-! ## Specification-side descriptions of the triangulation -/

/-- Number of input faces that are sequences with at least 3 entries. -/
def countFacesAtLeast3 (faces : List Face) : Nat :=
  faces.countP (fun f =>
    match f with
    | some l => decide (3 ≤ l.length)
    | none => false)

/-- A face for which `triangulateFaces` appends a group record: a sequence
of at least 3 entries whose fan loop emits at least one valid triangle. -/
def yieldsGroup : Face → Bool
  | some l => decide (3 ≤ l.length) && decide (0 < (faceTriangles l).length)
  | none => false

/-- The fan triangles the spec prescribes for an all-numeric face
`v0 :: tail`: the triangles `(v[0], v[i], v[i+1])` for `i = 1 .. n-2`,
in that order. -/
def fanSpec : List Int → List (Int × Int × Int)
  | v0 :: tail => (tail.zip tail.tail).map (fun p => (v0, p.1, p.2))
  | [] => []

/-- All attempted fan triangles `(v[0], v[i], v[i+1])` of a face, valid
or not. -/
def attemptedTriangles : List JSVal → List (JSVal × JSVal × JSVal)
  | v0 :: tail => (tail.zip tail.tail).map (fun p => (v0, p.1, p.2))
  | [] => []

/-- Keeps an attempted triangle exactly when all three entries are numbers. -/
def allNumTri : JSVal × JSVal × JSVal → Option (Int × Int × Int)
  | (.num a, .num b, .num c) => some (a, b, c)
  | _ => none

/-! ## Lemmas about the fan loop -/

lemma fanTris_map_num (v0 : Int) (l : List Int) :
    fanTris (.num v0) (l.map .num) =
      (l.zip l.tail).map (fun p => (v0, p.1, p.2)) := by
  induction l with
  | nil => rfl
  | cons a t ih =>
    cases t with
    | nil => rfl
    | cons b s => simpa [fanTris] using ih

lemma fanTris_eq_filterMap (v0 : JSVal) (t : List JSVal) :
    fanTris v0 t =
      ((t.zip t.tail).map (fun p => (v0, p.1, p.2))).filterMap allNumTri := by
  induction t with
  | nil => cases v0 <;> rfl
  | cons a s ih =>
    cases s with
    | nil => cases v0 <;> cases a <;> rfl
    | cons b r =>
      cases v0 <;> cases a <;> cases b <;>
        simpa [fanTris, allNumTri] using ih

lemma faceTriangles_eq_filterMap (f : List JSVal) :
    faceTriangles f = (attemptedTriangles f).filterMap allNumTri := by
  cases f with
  | nil => rfl
  | cons v0 t => simpa [faceTriangles, attemptedTriangles] using fanTris_eq_filterMap v0 t

lemma faceTriangles_map_num (l : List Int) :
    faceTriangles (l.map .num) = fanSpec l := by
  cases l with
  | nil => rfl
  | cons v0 t => simpa [faceTriangles, fanSpec] using fanTris_map_num v0 t

lemma fanSpec_length (l : List Int) : (fanSpec l).length = l.length - 2 := by
  cases l with
  | nil => rfl
  | cons v0 t => simp [fanSpec, List.length_zip]

lemma triFlat_length (t : Int × Int × Int) : (triFlat t).length = 3 := rfl

lemma flatMap_triFlat_length (ts : List (Int × Int × Int)) :
    (ts.flatMap triFlat).length = 3 * ts.length := by
  induction ts with
  | nil => rfl
  | cons t ts ih => simp [ih, triFlat]; omega

/-- Numeric faces of length at least 3 take the group-appending branch of
`processFace`, with exactly the spec's fan triangles. -/
lemma processFace_map_num (st : TriState) (l : List Int) (h : 3 ≤ l.length) :
    processFace st (some (l.map .num)) =
      { triangulatedIndices := st.triangulatedIndices ++ (fanSpec l).flatMap triFlat,
        geometryGroups := st.geometryGroups ++
          [⟨st.vertexIndexOffset, 3 * (l.length - 2), st.validMaterialIndex⟩],
        vertexIndexOffset := st.vertexIndexOffset + 3 * (l.length - 2),
        validMaterialIndex := st.validMaterialIndex + 1 } := by
  have hlen : (l.map JSVal.num).length = l.length := by simp
  have hnot : ¬ (l.map JSVal.num).length < 3 := by omega
  have htris : faceTriangles (l.map .num) = fanSpec l := faceTriangles_map_num l
  have hpos : 0 < l.length - 2 := by omega
  simp only [processFace, htris, hnot, if_neg, fanSpec_length]
  simp [hpos]

/-- Faces that are missing, non-sequences, or sequences with fewer than 3
entries leave the whole state unchanged. -/
lemma processFace_skip (st : TriState) (face : Face)
    (h : face = none ∨ ∃ l, face = some l ∧ l.length < 3) :
    processFace st face = st := by
  rcases h with h | ⟨l, rfl, hl⟩
  · subst h; rfl
  · simp [processFace, hl]

/-- Faces that yield no group (including valid-length faces all of whose
attempted triangles are invalid) leave the whole state unchanged. -/
lemma processFace_no_yield (st : TriState) (face : Face)
    (h : yieldsGroup face = false) :
    processFace st face = st := by
  cases face with
  | none => rfl
  | some l =>
    by_cases hl : l.length < 3
    · simp [processFace, hl]
    · have hz : (faceTriangles l).length = 0 := by
        by_contra hz
        have : yieldsGroup (some l) = true := by
          simp [yieldsGroup]
          exact ⟨by omega, by omega⟩
        rw [this] at h; cases h
      have hnil : faceTriangles l = [] := List.length_eq_zero.mp hz
      cases st with
      | mk ti gg off mat => simp [processFace, hl, hnil]

/-- The group list grows by exactly the `yieldsGroup` count. -/
lemma foldl_groups_length (faces : List Face) (st : TriState) :
    ((faces.foldl processFace st).geometryGroups).length =
      st.geometryGroups.length + faces.countP yieldsGroup := by
  induction faces generalizing st with
  | nil => simp
  | cons f fs ih =>
    rw [List.foldl_cons, ih, List.countP_cons]
    have hstep : (processFace st f).geometryGroups.length =
        st.geometryGroups.length + (if yieldsGroup f = true then 1 else 0) := by
      cases hy : yieldsGroup f with
      | false => rw [processFace_no_yield st f hy]; simp
      | true =>
        cases f with
        | none => simp [yieldsGroup] at hy
        | some l =>
          have hl : ¬ l.length < 3 := by
            simp [yieldsGroup] at hy
            omega
          have hpos : 0 < (faceTriangles l).length := by
            simp [yieldsGroup] at hy
            omega
          simp [processFace, hl, hpos]
    omega

/-! ## The group-partition invariant -/

/-- Sum of the `count` fields of a group list. -/
def sumCounts (gs : List Group) : Nat := (gs.map Group.count).sum

/-- The groups tile the index buffer contiguously starting at `pos`. -/
def contiguousFrom : Nat → List Group → Prop
  | _, [] => True
  | pos, g :: rest => g.start = pos ∧ contiguousFrom (pos + g.count) rest

/-- The material indices are sequential starting at `k`. -/
def matSeqFrom : Nat → List Group → Prop
  | _, [] => True
  | k, g :: rest => g.materialIndex = k ∧ matSeqFrom (k + 1) rest

lemma sumCounts_append_single (gs : List Group) (g : Group) :
    sumCounts (gs ++ [g]) = sumCounts gs + g.count := by
  simp [sumCounts]

lemma contiguousFrom_append_single (p : Nat) (gs : List Group) (g : Group) :
    contiguousFrom p (gs ++ [g]) ↔
      contiguousFrom p gs ∧ g.start = p + sumCounts gs := by
  induction gs generalizing p with
  | nil => simp [contiguousFrom, sumCounts]
  | cons a t ih =>
    have hs : sumCounts (a :: t) = a.count + sumCounts t := by simp [sumCounts]
    show a.start = p ∧ contiguousFrom (p + a.count) (t ++ [g]) ↔
      (a.start = p ∧ contiguousFrom (p + a.count) t) ∧ g.start = p + sumCounts (a :: t)
    rw [ih, hs]
    constructor
    · rintro ⟨hp, hc, hg⟩
      exact ⟨⟨hp, hc⟩, by omega⟩
    · rintro ⟨⟨hp, hc⟩, hg⟩
      exact ⟨hp, hc, by omega⟩

lemma matSeqFrom_append_single (k : Nat) (gs : List Group) (g : Group) :
    matSeqFrom k (gs ++ [g]) ↔
      matSeqFrom k gs ∧ g.materialIndex = k + gs.length := by
  induction gs generalizing k with
  | nil => simp [matSeqFrom]
  | cons a t ih =>
    show a.materialIndex = k ∧ matSeqFrom (k + 1) (t ++ [g]) ↔
      (a.materialIndex = k ∧ matSeqFrom (k + 1) t) ∧ g.materialIndex = k + (a :: t).length
    rw [ih]
    constructor
    · rintro ⟨hp, hc, hg⟩
      exact ⟨⟨hp, hc⟩, by simp; omega⟩
    · rintro ⟨⟨hp, hc⟩, hg⟩
      refine ⟨hp, hc, ?_⟩
      simp at hg
      omega

/-- The full state invariant of the `forEach` loop of `triangulateFaces`. -/
def TriInv (st : TriState) : Prop :=
  st.triangulatedIndices.length = st.vertexIndexOffset ∧
  sumCounts st.geometryGroups = st.vertexIndexOffset ∧
  contiguousFrom 0 st.geometryGroups ∧
  matSeqFrom 0 st.geometryGroups ∧
  st.validMaterialIndex = st.geometryGroups.length

/-- The effect of one face in the group-appending branch, as an equation. -/
lemma processFace_some_ge3 (st : TriState) (l : List JSVal)
    (hl : ¬ l.length < 3) (hpos : 0 < (faceTriangles l).length) :
    processFace st (some l) =
      { triangulatedIndices := st.triangulatedIndices ++ (faceTriangles l).flatMap triFlat,
        geometryGroups := st.geometryGroups ++
          [⟨st.vertexIndexOffset, 3 * (faceTriangles l).length, st.validMaterialIndex⟩],
        vertexIndexOffset := st.vertexIndexOffset + 3 * (faceTriangles l).length,
        validMaterialIndex := st.validMaterialIndex + 1 } := by
  simp [processFace, hl, hpos]

lemma processFace_inv (st : TriState) (face : Face) (h : TriInv st) :
    TriInv (processFace st face) := by
  obtain ⟨h1, h2, h3, h4, h5⟩ := h
  cases face with
  | none => exact ⟨h1, h2, h3, h4, h5⟩
  | some l =>
    by_cases hl : l.length < 3
    · rw [processFace_skip st (some l) (Or.inr ⟨l, rfl, hl⟩)]
      exact ⟨h1, h2, h3, h4, h5⟩
    · by_cases hpos : 0 < (faceTriangles l).length
      · rw [processFace_some_ge3 st l hl hpos]
        refine ⟨?_, ?_, ?_, ?_, ?_⟩
        · show (st.triangulatedIndices ++ (faceTriangles l).flatMap triFlat).length =
            st.vertexIndexOffset + 3 * (faceTriangles l).length
          rw [List.length_append, flatMap_triFlat_length, h1]
        · show sumCounts (st.geometryGroups ++
              [⟨st.vertexIndexOffset, 3 * (faceTriangles l).length, st.validMaterialIndex⟩]) =
            st.vertexIndexOffset + 3 * (faceTriangles l).length
          rw [sumCounts_append_single, h2]
        · show contiguousFrom 0 (st.geometryGroups ++
            [⟨st.vertexIndexOffset, 3 * (faceTriangles l).length, st.validMaterialIndex⟩])
          rw [contiguousFrom_append_single]
          exact ⟨h3, by show st.vertexIndexOffset = 0 + sumCounts st.geometryGroups; omega⟩
        · show matSeqFrom 0 (st.geometryGroups ++
            [⟨st.vertexIndexOffset, 3 * (faceTriangles l).length, st.validMaterialIndex⟩])
          rw [matSeqFrom_append_single]
          exact ⟨h4, by show st.validMaterialIndex = 0 + st.geometryGroups.length; omega⟩
        · show st.validMaterialIndex + 1 =
            (st.geometryGroups ++
              [(⟨st.vertexIndexOffset, 3 * (faceTriangles l).length,
                 st.validMaterialIndex⟩ : Group)]).length
          simp [h5]
      · have hnil : faceTriangles l = [] := by
          rw [← List.length_eq_zero]; omega
        rw [processFace_no_yield st (some l) (by simp [yieldsGroup, hnil])]
        exact ⟨h1, h2, h3, h4, h5⟩

lemma triangulateState_inv (faces : List Face) : TriInv (triangulateState faces) := by
  have hinit : TriInv ⟨[], [], 0, 0⟩ := by
    refine ⟨rfl, rfl, trivial, trivial, rfl⟩
  rw [triangulateState]
  generalize hst : (⟨[], [], 0, 0⟩ : TriState) = st at hinit
  clear hst
  induction faces generalizing st with
  | nil => exact hinit
  | cons f fs ih => exact ih _ (processFace_inv st f hinit)

/-! ## Claim theorems: triangulation -/

/-- C1 (counterexample): the face list `[[0, "x", 2]]` has one face with
3 indices, yet `triangulateFaces` returns zero groups, so the group count
is *not* independent of the values of the indices inside the faces. -/
theorem C1_counterexample :
    ¬ ((triangulateFaces [some [.num 0, .nonNum, .num 2]]).groups.length =
        countFacesAtLeast3 [some [.num 0, .nonNum, .num 2]]) := by
  decide

/-- C1 (amended): the number of group records equals the number of input
faces that are sequences of at least 3 indices whose fan loop emits at
least one valid triangle; for a face whose entries are all numbers this
condition reduces to simply having at least 3 indices. -/
theorem C1_group_count (faces : List Face) :
    (triangulateFaces faces).groups.length = faces.countP yieldsGroup ∧
    ∀ (l : List Int), yieldsGroup (some (l.map .num)) = decide (3 ≤ l.length) := by
  constructor
  · have := foldl_groups_length faces ⟨[], [], 0, 0⟩
    simpa [triangulateFaces, triangulateState] using this
  · intro l
    by_cases h : 3 ≤ l.length
    · have : 0 < (faceTriangles (l.map .num)).length := by
        rw [faceTriangles_map_num, fanSpec_length]; omega
      simp [yieldsGroup, h, this]
    · simp [yieldsGroup, h]

/-- C2: a face of `n ≥ 3` numeric indices emits exactly the `n − 2` fan
triangles `(v[0], v[i], v[i+1])` for `i = 1 .. n-2` in that order, appends
one group whose `count` is `3 × (n − 2)` (three indices per emitted
triangle), and advances the offset and material counters accordingly; with
`n = 3` the single triangle is emitted unchanged. -/
theorem C2_fan_triangulation (st : TriState) (l : List Int) (h : 3 ≤ l.length) :
    processFace st (some (l.map .num)) =
      { triangulatedIndices := st.triangulatedIndices ++ (fanSpec l).flatMap triFlat,
        geometryGroups := st.geometryGroups ++
          [⟨st.vertexIndexOffset, 3 * (l.length - 2), st.validMaterialIndex⟩],
        vertexIndexOffset := st.vertexIndexOffset + 3 * (l.length - 2),
        validMaterialIndex := st.validMaterialIndex + 1 } ∧
    (fanSpec l).length = l.length - 2 := by
  exact ⟨processFace_map_num st l h, fanSpec_length l⟩

/-- C2 witness: the triangle face `[0, 1, 2]` processed from the initial
state emits exactly the one triangle `(0, 1, 2)` with a single group of
count 3. -/
theorem C2_fan_triangulation_witness :
    3 ≤ ([0, 1, 2] : List Int).length ∧
    (processFace ⟨[], [], 0, 0⟩ (some (([0, 1, 2] : List Int).map .num)) =
      { triangulatedIndices := ([] : List Int) ++ (fanSpec [0, 1, 2]).flatMap triFlat,
        geometryGroups := ([] : List Group) ++ [⟨0, 3 * (([0, 1, 2] : List Int).length - 2), 0⟩],
        vertexIndexOffset := 0 + 3 * (([0, 1, 2] : List Int).length - 2),
        validMaterialIndex := 0 + 1 } ∧
      (fanSpec [0, 1, 2]).length = ([0, 1, 2] : List Int).length - 2) :=
  ⟨by decide, C2_fan_triangulation ⟨[], [], 0, 0⟩ [0, 1, 2] (by decide)⟩

/-- C3: a non-numeric index invalidates only the individual attempted
triangles it appears in — the emitted triangles are exactly the numeric
ones among the attempted fan triangles, in order; the group (when any
triangle was emitted) counts exactly those, and a face all of whose
attempted triangles are invalid contributes nothing at all. -/
theorem C3_skip_invalid_triangles (st : TriState) (f : List JSVal)
    (h : 3 ≤ f.length) :
    faceTriangles f = (attemptedTriangles f).filterMap allNumTri ∧
    (processFace st (some f)).triangulatedIndices =
      st.triangulatedIndices ++
        ((attemptedTriangles f).filterMap allNumTri).flatMap triFlat ∧
    (processFace st (some f)).geometryGroups =
      st.geometryGroups ++
        (if 0 < (faceTriangles f).length then
          [⟨st.vertexIndexOffset, 3 * (faceTriangles f).length, st.validMaterialIndex⟩]
         else []) ∧
    (faceTriangles f = [] → processFace st (some f) = st) := by
  have hl : ¬ f.length < 3 := by omega
  have hface := faceTriangles_eq_filterMap f
  have hskip : faceTriangles f = [] → processFace st (some f) = st := fun hnil =>
    processFace_no_yield st (some f) (by simp [yieldsGroup, hnil])
  refine ⟨hface, ?_, ?_, hskip⟩
  · by_cases hpos : 0 < (faceTriangles f).length
    · rw [processFace_some_ge3 st f hl hpos, ← hface]
    · have hnil : faceTriangles f = [] := by
        rw [← List.length_eq_zero]; omega
      rw [hskip hnil, ← hface, hnil]
      simp
  · by_cases hpos : 0 < (faceTriangles f).length
    · rw [processFace_some_ge3 st f hl hpos, if_pos hpos]
    · have hnil : faceTriangles f = [] := by
        rw [← List.length_eq_zero]; omega
      rw [hskip hnil, if_neg hpos]
      simp

/-- C3 witness: the face `[0, "x", 2]` has one attempted triangle, it is
invalid, and the face leaves the state untouched. -/
theorem C3_skip_invalid_triangles_witness :
    3 ≤ ([JSVal.num 0, .nonNum, .num 2] : List JSVal).length ∧
    (faceTriangles [JSVal.num 0, .nonNum, .num 2] =
      (attemptedTriangles [JSVal.num 0, .nonNum, .num 2]).filterMap allNumTri ∧
    (processFace ⟨[], [], 0, 0⟩ (some [JSVal.num 0, .nonNum, .num 2])).triangulatedIndices =
      ([] : List Int) ++
        ((attemptedTriangles [JSVal.num 0, .nonNum, .num 2]).filterMap allNumTri).flatMap triFlat ∧
    (processFace ⟨[], [], 0, 0⟩ (some [JSVal.num 0, .nonNum, .num 2])).geometryGroups =
      ([] : List Group) ++
        (if 0 < (faceTriangles [JSVal.num 0, .nonNum, .num 2]).length then
          [⟨0, 3 * (faceTriangles [JSVal.num 0, .nonNum, .num 2]).length, 0⟩]
         else []) ∧
    (faceTriangles [JSVal.num 0, .nonNum, .num 2] = [] →
      processFace ⟨[], [], 0, 0⟩ (some [JSVal.num 0, .nonNum, .num 2]) = ⟨[], [], 0, 0⟩)) :=
  ⟨by decide, C3_skip_invalid_triangles ⟨[], [], 0, 0⟩ [JSVal.num 0, .nonNum, .num 2] (by decide)⟩

/-- C4: the groups returned by `triangulateFaces` partition the output
index buffer in face order — the first group starts at 0, each group
starts where the previous one ended, the counts sum to the length of the
index buffer, and the k-th group's `materialIndex` is `k`. -/
theorem C4_groups_partition (faces : List Face) :
    contiguousFrom 0 (triangulateFaces faces).groups ∧
    matSeqFrom 0 (triangulateFaces faces).groups ∧
    sumCounts (triangulateFaces faces).groups = (triangulateFaces faces).indices.length := by
  obtain ⟨h1, h2, h3, h4, _⟩ := triangulateState_inv faces
  refine ⟨h3, h4, ?_⟩
  rw [show (triangulateFaces faces).groups = (triangulateState faces).geometryGroups from rfl,
    show (triangulateFaces faces).indices = (triangulateState faces).triangulatedIndices from rfl]
  omega

/-- C7: a face that is missing, not a sequence, or has fewer than 3
indices is skipped entirely — the whole loop state (index buffer, groups,
offset, material-slot counter) is as if the face were absent, and the
remaining faces are processed normally. -/
theorem C7_skip_invalid_faces (pre post : List Face) (face : Face)
    (h : face = none ∨ ∃ l, face = some l ∧ l.length < 3) :
    triangulateState (pre ++ face :: post) = triangulateState (pre ++ post) ∧
    triangulateFaces (pre ++ face :: post) = triangulateFaces (pre ++ post) := by
  have hstate : triangulateState (pre ++ face :: post) = triangulateState (pre ++ post) := by
    rw [triangulateState, triangulateState, List.foldl_append, List.foldl_append,
      List.foldl_cons, processFace_skip _ face h]
  exact ⟨hstate, by rw [triangulateFaces, triangulateFaces, hstate]⟩

/-- C7 witness: a length-2 face inserted between two triangles changes
nothing. -/
theorem C7_skip_invalid_faces_witness :
    (some [JSVal.num 0, .num 1] = none ∨
      ∃ l, some [JSVal.num 0, .num 1] = some l ∧ l.length < 3) ∧
    (triangulateState ([some [JSVal.num 0, .num 1, .num 2]] ++
        some [JSVal.num 0, .num 1] :: [some [JSVal.num 1, .num 2, .num 3]]) =
      triangulateState ([some [JSVal.num 0, .num 1, .num 2]] ++
        [some [JSVal.num 1, .num 2, .num 3]]) ∧
    triangulateFaces ([some [JSVal.num 0, .num 1, .num 2]] ++
        some [JSVal.num 0, .num 1] :: [some [JSVal.num 1, .num 2, .num 3]]) =
      triangulateFaces ([some [JSVal.num 0, .num 1, .num 2]] ++
        [some [JSVal.num 1, .num 2, .num 3]])) :=
  ⟨Or.inr ⟨[JSVal.num 0, .num 1], rfl, by decide⟩,
   C7_skip_invalid_faces [some [JSVal.num 0, .num 1, .num 2]]
     [some [JSVal.num 1, .num 2, .num 3]] (some [JSVal.num 0, .num 1])
     (Or.inr ⟨[JSVal.num 0, .num 1], rfl, by decide⟩)⟩

/-- C6: the face `[0, 1]` is skipped by `triangulateFaces` (no indices, no
group), but the edge extraction walks it as a cyclic 2-gon whose two pairs
`(0,1)` and `(1,0)` share the canonical key `(0,1)`, producing the single
degenerate edge `(0, 1)` exactly once. -/
theorem C6_length_two_face :
    triangulateFaces [some [.num 0, .num 1]] = ⟨[], []⟩ ∧
    extractEdges [some [.num 0, .num 1]] = ⟨[0, 1], [(0, 1)]⟩ := by
  decide

/-! ## Specification-side description of the edge extraction -/

/-- Keeps a walked pair exactly when both endpoints are numbers. -/
def numPair : JSVal × JSVal → Option (Int × Int)
  | (.num a, .num b) => some (a, b)
  | _ => none

/-- The canonical undirected key `(min, max)` of a pair. -/
def canon (p : Int × Int) : Int × Int := (min p.1 p.2, max p.1 p.2)

/-- Flattens one stored pair into the two indices pushed by
`edgeIndices.push(idx1, idx2)`. -/
def pairFlat (p : Int × Int) : List Int := [p.1, p.2]

/-- The numeric cyclic pairs one face contributes to the discovery walk. -/
def faceStream : Face → List (Int × Int)
  | none => []
  | some l => if l.length < 2 then [] else (cyclicPairs l).filterMap numPair

/-- The full discovery stream: the numeric cyclic pairs of all processed
faces, in walk order. -/
def edgeStream (faces : List Face) : List (Int × Int) :=
  faces.flatMap faceStream

/-- The spec's description of the output edge list: one pair per unique
undirected edge, in order of first discovery, each keeping the `(a, b)`
orientation of its first occurrence; `seen` is the set of canonical keys
already taken. -/
def firstOccurrences (seen : List (Int × Int)) : List (Int × Int) → List (Int × Int)
  | [] => []
  | p :: rest =>
    if canon p ∈ seen then firstOccurrences seen rest
    else p :: firstOccurrences (seen ++ [canon p]) rest

lemma foldl_edgeStep (ps : List (JSVal × JSVal)) (st : EdgeState) :
    ps.foldl edgeStep st =
      ⟨st.edgeIndices ++
         (firstOccurrences st.uniqueEdges (ps.filterMap numPair)).flatMap pairFlat,
       st.uniqueEdges ++
         (firstOccurrences st.uniqueEdges (ps.filterMap numPair)).map canon⟩ := by
  induction ps generalizing st with
  | nil => cases st with | mk ei ue => simp [firstOccurrences]
  | cons p rest ih =>
    obtain ⟨x, y⟩ := p
    rw [List.foldl_cons]
    cases x with
    | nonNum =>
      have h1 : edgeStep st (.nonNum, y) = st := by cases y <;> rfl
      have h2 : numPair (.nonNum, y) = none := by cases y <;> rfl
      rw [h1, ih, List.filterMap_cons_none h2]
    | num a =>
      cases y with
      | nonNum => rw [show edgeStep st (.num a, .nonNum) = st from rfl, ih,
          List.filterMap_cons_none (show numPair (.num a, .nonNum) = none from rfl)]
      | num b =>
        rw [List.filterMap_cons_some (show numPair (.num a, .num b) = some (a, b) from rfl)]
        by_cases hmem : (min a b, max a b) ∈ st.uniqueEdges
        · have hstep : edgeStep st (.num a, .num b) = st := by
            simp [edgeStep, hmem]
          have hfo : firstOccurrences st.uniqueEdges ((a, b) :: rest.filterMap numPair) =
              firstOccurrences st.uniqueEdges (rest.filterMap numPair) := by
            simp only [firstOccurrences]
            rw [if_pos (show canon (a, b) ∈ st.uniqueEdges from hmem)]
          rw [hstep, ih, hfo]
        · have hstep : edgeStep st (.num a, .num b) =
              ⟨st.edgeIndices ++ [a, b], st.uniqueEdges ++ [(min a b, max a b)]⟩ := by
            simp [edgeStep, hmem]
          have hfo : firstOccurrences st.uniqueEdges ((a, b) :: rest.filterMap numPair) =
              (a, b) :: firstOccurrences (st.uniqueEdges ++ [(min a b, max a b)])
                (rest.filterMap numPair) := by
            simp only [firstOccurrences]
            rw [if_neg (show ¬ canon (a, b) ∈ st.uniqueEdges from hmem)]
            rfl
          rw [hstep, ih, hfo]
          simp [pairFlat, canon]

lemma firstOccurrences_append (xs ys seen : List (Int × Int)) :
    firstOccurrences seen (xs ++ ys) =
      firstOccurrences seen xs ++
        firstOccurrences (seen ++ (firstOccurrences seen xs).map canon) ys := by
  induction xs generalizing seen with
  | nil => simp [firstOccurrences]
  | cons p rest ih =>
    by_cases h : canon p ∈ seen
    · simp only [List.cons_append, firstOccurrences, if_pos h]
      exact ih seen
    · simp only [List.cons_append, firstOccurrences, if_neg h, List.append_eq]
      rw [ih (seen ++ [canon p])]
      simp [List.append_assoc]

lemma processEdgeFace_eq (st : EdgeState) (f : Face) :
    processEdgeFace st f =
      ⟨st.edgeIndices ++ (firstOccurrences st.uniqueEdges (faceStream f)).flatMap pairFlat,
       st.uniqueEdges ++ (firstOccurrences st.uniqueEdges (faceStream f)).map canon⟩ := by
  cases f with
  | none => cases st with | mk ei ue => simp [processEdgeFace, faceStream, firstOccurrences]
  | some l =>
    by_cases h : l.length < 2
    · cases st with | mk ei ue => simp [processEdgeFace, faceStream, h, firstOccurrences]
    · rw [show processEdgeFace st (some l) = (cyclicPairs l).foldl edgeStep st from by
        simp [processEdgeFace, h]]
      rw [foldl_edgeStep, show faceStream (some l) = (cyclicPairs l).filterMap numPair from by
        simp [faceStream, h]]

lemma foldl_processEdgeFace (faces : List Face) (st : EdgeState) :
    faces.foldl processEdgeFace st =
      ⟨st.edgeIndices ++ (firstOccurrences st.uniqueEdges (edgeStream faces)).flatMap pairFlat,
       st.uniqueEdges ++ (firstOccurrences st.uniqueEdges (edgeStream faces)).map canon⟩ := by
  induction faces generalizing st with
  | nil => cases st with | mk ei ue => simp [edgeStream, firstOccurrences]
  | cons f fs ih =>
    rw [List.foldl_cons, processEdgeFace_eq, ih]
    have hst : edgeStream (f :: fs) = faceStream f ++ edgeStream fs := by
      simp [edgeStream]
    rw [hst, firstOccurrences_append]
    simp [List.append_assoc]

lemma extractEdges_eq (faces : List Face) :
    extractEdges faces =
      ⟨(firstOccurrences [] (edgeStream faces)).flatMap pairFlat,
       (firstOccurrences [] (edgeStream faces)).map canon⟩ := by
  rw [extractEdges, foldl_processEdgeFace]
  rfl

lemma firstOccurrences_nodup_and_fresh (l : List (Int × Int)) :
    ∀ seen, ((firstOccurrences seen l).map canon).Nodup ∧
      ∀ p ∈ firstOccurrences seen l, canon p ∉ seen := by
  induction l with
  | nil => intro seen; simp [firstOccurrences]
  | cons p rest ih =>
    intro seen
    by_cases h : canon p ∈ seen
    · simp only [firstOccurrences, if_pos h]
      exact ih seen
    · simp only [firstOccurrences, if_neg h]
      obtain ⟨hnodup, hfresh⟩ := ih (seen ++ [canon p])
      refine ⟨?_, ?_⟩
      · rw [List.map_cons, List.nodup_cons]
        refine ⟨?_, hnodup⟩
        intro hmem
        rcases List.mem_map.mp hmem with ⟨q, hq, hcq⟩
        exact hfresh q hq (by simp [hcq])
      · intro q hq
        rcases List.mem_cons.mp hq with rfl | hq2
        · exact h
        · intro hmem
          exact hfresh q hq2 (by simp [hmem])

lemma mem_of_mem_firstOccurrences {p : Int × Int} (l : List (Int × Int)) :
    ∀ seen, p ∈ firstOccurrences seen l → p ∈ l := by
  induction l with
  | nil => intro seen h; simp [firstOccurrences] at h
  | cons q rest ih =>
    intro seen h
    by_cases hq : canon q ∈ seen
    · simp only [firstOccurrences, if_pos hq] at h
      exact List.mem_cons_of_mem q (ih seen h)
    · simp only [firstOccurrences, if_neg hq, List.mem_cons] at h
      rcases h with rfl | h
      · exact List.mem_cons_self p rest
      · exact List.mem_cons_of_mem q (ih (seen ++ [canon q]) h)

lemma canon_mem_firstOccurrences (l : List (Int × Int)) :
    ∀ seen, ∀ q ∈ l,
      canon q ∈ seen ∨ canon q ∈ (firstOccurrences seen l).map canon := by
  induction l with
  | nil => intro seen q hq; cases hq
  | cons p rest ih =>
    intro seen q hq
    by_cases h : canon p ∈ seen
    · simp only [firstOccurrences, if_pos h]
      rcases List.mem_cons.mp hq with rfl | hq2
      · exact Or.inl h
      · exact ih seen q hq2
    · simp only [firstOccurrences, if_neg h, List.map_cons, List.mem_cons]
      rcases List.mem_cons.mp hq with rfl | hq2
      · exact Or.inr (Or.inl rfl)
      · rcases ih (seen ++ [canon p]) q hq2 with hmem | hmem
        · rcases List.mem_append.mp hmem with h1 | h1
          · exact Or.inl h1
          · exact Or.inr (Or.inl (by simpa using h1))
        · exact Or.inr (Or.inr hmem)

/-- Membership in the deduplication set is exactly having been discovered
as the canonical key of some numeric cyclic pair of some processed face. -/
lemma mem_uniqueEdges_iff (faces : List Face) (e : Int × Int) :
    e ∈ (extractEdges faces).uniqueEdges ↔ e ∈ (edgeStream faces).map canon := by
  rw [extractEdges_eq]
  show e ∈ (firstOccurrences [] (edgeStream faces)).map canon ↔ _
  constructor
  · intro h
    rcases List.mem_map.mp h with ⟨p, hp, rfl⟩
    exact List.mem_map_of_mem canon (mem_of_mem_firstOccurrences _ [] hp)
  · intro h
    rcases List.mem_map.mp h with ⟨q, hq, rfl⟩
    rcases canon_mem_firstOccurrences (edgeStream faces) [] q hq with h0 | h0
    · simp at h0
    · exact h0

/-! ## Cyclic rotation of a face -/

/-- The consecutive pairs of the walk `x :: l`. -/
def walk (x : JSVal) : List JSVal → List (JSVal × JSVal)
  | [] => []
  | y :: l => (x, y) :: walk y l

lemma zip_eq_walk (l : List JSVal) :
    ∀ (x v : JSVal), (x :: l).zip (l ++ [v]) = walk x (l ++ [v]) := by
  induction l with
  | nil => intro x v; rfl
  | cons a t ih => intro x v; simpa [walk] using ih a v

lemma cyclicPairs_eq_walk (v : JSVal) (t : List JSVal) :
    cyclicPairs (v :: t) = walk v (t ++ [v]) := zip_eq_walk t v v

lemma walk_append (l : List JSVal) :
    ∀ (x y : JSVal) (s : List JSVal),
      walk x (l ++ y :: s) = walk x (l ++ [y]) ++ walk y s := by
  induction l with
  | nil => intro x y s; rfl
  | cons a t ih => intro x y s; simpa [walk] using ih a y s

lemma cyclicPairs_rotate_one (l : List JSVal) :
    (cyclicPairs (l.rotate 1)).Perm (cyclicPairs l) := by
  cases l with
  | nil => simp [List.rotate_nil]
  | cons v t =>
    rw [List.rotate_cons_succ, List.rotate_zero]
    cases t with
    | nil => exact List.Perm.refl _
    | cons w s =>
      have h1 : cyclicPairs ((w :: s) ++ [v]) = walk w (s ++ [v]) ++ [(v, w)] := by
        show cyclicPairs (w :: (s ++ [v])) = _
        rw [cyclicPairs_eq_walk, List.append_assoc]
        exact walk_append s w v [w]
      have h2 : cyclicPairs (v :: w :: s) = (v, w) :: walk w (s ++ [v]) := by
        rw [cyclicPairs_eq_walk]
        rfl
      rw [h1, h2]
      exact List.perm_append_comm

lemma cyclicPairs_rotate (l : List JSVal) (k : Nat) :
    (cyclicPairs (l.rotate k)).Perm (cyclicPairs l) := by
  induction k with
  | zero => rw [List.rotate_zero]
  | succ n ih =>
    rw [show l.rotate (n + 1) = (l.rotate n).rotate 1 from (List.rotate_rotate l n 1).symm]
    exact (cyclicPairs_rotate_one (l.rotate n)).trans ih

lemma faceStream_rotate_perm (l : List JSVal) (k : Nat) :
    (faceStream (some (l.rotate k))).Perm (faceStream (some l)) := by
  show (if (l.rotate k).length < 2 then [] else
      (cyclicPairs (l.rotate k)).filterMap numPair).Perm
    (if l.length < 2 then [] else (cyclicPairs l).filterMap numPair)
  rw [List.length_rotate]
  by_cases h : l.length < 2
  · rw [if_pos h, if_pos h]
  · rw [if_neg h, if_neg h]
    exact (cyclicPairs_rotate l k).filterMap numPair

/-! ## Claim theorems: edge extraction and the degenerate caller path -/

/-- C5: the edge list is exactly the first-occurrence deduplication of the
in-order cyclic discovery walk — each stored pair keeps the orientation of
its first occurrence, pairs appear in discovery order, and no two stored
pairs share a canonical `(min, max)` key. -/
theorem C5_edges_deduplicated (faces : List Face) :
    (extractEdges faces).edgeIndices =
      (firstOccurrences [] (edgeStream faces)).flatMap pairFlat ∧
    (extractEdges faces).uniqueEdges =
      (firstOccurrences [] (edgeStream faces)).map canon ∧
    ((firstOccurrences [] (edgeStream faces)).map canon).Nodup := by
  rw [extractEdges_eq]
  exact ⟨rfl, rfl, (firstOccurrences_nodup_and_fresh (edgeStream faces) []).1⟩

/-- C8: replacing one face by any cyclic rotation of itself leaves the set
of canonical edge keys produced by the edge extraction unchanged. -/
theorem C8_rotation_invariant (pre post : List Face) (l : List JSVal)
    (k : Nat) (e : Int × Int) :
    (e ∈ (extractEdges (pre ++ some (l.rotate k) :: post)).uniqueEdges ↔
     e ∈ (extractEdges (pre ++ some l :: post)).uniqueEdges) := by
  rw [mem_uniqueEdges_iff, mem_uniqueEdges_iff]
  have h1 : edgeStream (pre ++ some (l.rotate k) :: post) =
      edgeStream pre ++ (faceStream (some (l.rotate k)) ++ edgeStream post) := by
    simp [edgeStream]
  have h2 : edgeStream (pre ++ some l :: post) =
      edgeStream pre ++ (faceStream (some l) ++ edgeStream post) := by
    simp [edgeStream]
  rw [h1, h2]
  simp only [List.map_append, List.mem_append]
  have hmid := ((faceStream_rotate_perm l k).map canon).mem_iff (a := e)
  tauto

/-- The degenerate-result guard of the caller `updatePolytopeMesh`:
`faceIndices.length === 0 || faceGroups.length === 0` triggers an early
return before any mesh geometry is constructed. -/
def meshConstructionSkipped (faces : List Face) : Bool :=
  (triangulateFaces faces).indices.length == 0 ||
    (triangulateFaces faces).groups.length == 0

/-- C9: when no face yields a triangle, `triangulateFaces` returns empty
indices and empty groups (it does not fail), and the caller's guard
detects the empty result so no mesh geometry is constructed. -/
theorem C9_empty_result (faces : List Face)
    (h : ∀ f ∈ faces, yieldsGroup f = false) :
    triangulateFaces faces = ⟨[], []⟩ ∧ meshConstructionSkipped faces = true := by
  have hfold : ∀ (fs : List Face), (∀ f ∈ fs, yieldsGroup f = false) →
      ∀ st, fs.foldl processFace st = st := by
    intro fs hfs
    induction fs with
    | nil => intro st; rfl
    | cons f rest ih =>
      intro st
      rw [List.foldl_cons, processFace_no_yield st f (hfs f (by simp))]
      exact ih (fun g hg => hfs g (by simp [hg])) st
  have hstate : triangulateState faces = ⟨[], [], 0, 0⟩ := hfold faces h _
  have hres : triangulateFaces faces = ⟨[], []⟩ := by
    rw [triangulateFaces, hstate]
  exact ⟨hres, by simp [meshConstructionSkipped, hres]⟩

/-- C9 witness: a face list consisting of a face with an invalid triangle,
a missing face and a 2-gon produces the empty result and trips the
caller's guard. -/
theorem C9_empty_result_witness :
    (∀ f ∈ ([some [JSVal.num 0, .nonNum, .num 2], none,
        some [JSVal.num 0, .num 1]] : List Face), yieldsGroup f = false) ∧
    (triangulateFaces [some [JSVal.num 0, .nonNum, .num 2], none,
        some [JSVal.num 0, .num 1]] = ⟨[], []⟩ ∧
      meshConstructionSkipped [some [JSVal.num 0, .nonNum, .num 2], none,
        some [JSVal.num 0, .num 1]] = true) :=
  ⟨by decide, C9_empty_result _ (by decide)⟩

/-- The stored pairs of the flat edge index buffer, as consumed by
`THREE.LineSegments`: consecutive index pairs are the rendered segments. -/
def chunkPairs : List Int → List (Int × Int)
  | a :: b :: rest => (a, b) :: chunkPairs rest
  | _ => []

lemma chunkPairs_flatMap (ps : List (Int × Int)) :
    chunkPairs (ps.flatMap pairFlat) = ps := by
  induction ps with
  | nil => rfl
  | cons p rest ih =>
    obtain ⟨a, b⟩ := p
    simpa [pairFlat, chunkPairs] using ih

lemma canon_eq_diag {p : Int × Int} {a : Int} (h : canon p = (a, a)) : p = (a, a) := by
  obtain ⟨x, y⟩ := p
  rw [canon, Prod.mk.injEq] at h
  obtain ⟨h1, h2⟩ := h
  have hx1 : min x y ≤ x := min_le_left x y
  have hx2 : x ≤ max x y := le_max_left x y
  have hy1 : min x y ≤ y := min_le_right x y
  have hy2 : y ≤ max x y := le_max_right x y
  rw [h1] at hx1 hy1
  rw [h2] at hx2 hy2
  rw [Prod.mk.injEq]
  omega

/-- C10: self-loop edges are not filtered — a face of length at least 2
with two cyclically consecutive equal numeric indices `a` puts the
degenerate pair `(a, a)` into the output edge list, its canonical key
`(a, a)` entering the deduplication set like any other edge. -/
theorem C10_self_loop_kept (faces : List Face) (l : List JSVal) (a : Int)
    (hf : some l ∈ faces) (hlen : 2 ≤ l.length)
    (hpair : (JSVal.num a, JSVal.num a) ∈ cyclicPairs l) :
    (a, a) ∈ chunkPairs (extractEdges faces).edgeIndices ∧
    (a, a) ∈ (extractEdges faces).uniqueEdges := by
  have hmem : (a, a) ∈ faceStream (some l) := by
    rw [show faceStream (some l) = (cyclicPairs l).filterMap numPair from by
      simp [faceStream]; omega]
    exact List.mem_filterMap.mpr ⟨(.num a, .num a), hpair, rfl⟩
  have hstream : (a, a) ∈ edgeStream faces :=
    List.mem_flatMap.mpr ⟨some l, hf, hmem⟩
  have hcanon : canon (a, a) = (a, a) := by simp [canon]
  have hkey : (a, a) ∈ (extractEdges faces).uniqueEdges := by
    rw [mem_uniqueEdges_iff]
    exact hcanon ▸ List.mem_map_of_mem canon hstream
  refine ⟨?_, hkey⟩
  rw [extractEdges_eq] at hkey
  rcases List.mem_map.mp hkey with ⟨p, hp, hceq⟩
  have hpa : p = (a, a) := canon_eq_diag hceq
  rw [extractEdges_eq]
  show (a, a) ∈ chunkPairs ((firstOccurrences [] (edgeStream faces)).flatMap pairFlat)
  rw [chunkPairs_flatMap]
  exact hpa ▸ hp

/-- C10 witness: the face `[0, 0, 1]` produces the self-loop edge
`(0, 0)`. -/
theorem C10_self_loop_kept_witness :
    (some [JSVal.num 0, .num 0, .num 1] ∈
        ([some [JSVal.num 0, .num 0, .num 1]] : List Face)) ∧
    2 ≤ ([JSVal.num 0, .num 0, .num 1] : List JSVal).length ∧
    (JSVal.num 0, JSVal.num 0) ∈ cyclicPairs [JSVal.num 0, .num 0, .num 1] ∧
    ((0, 0) ∈ chunkPairs
        (extractEdges [some [JSVal.num 0, .num 0, .num 1]]).edgeIndices ∧
      (0, 0) ∈ (extractEdges [some [JSVal.num 0, .num 0, .num 1]]).uniqueEdges) :=
  ⟨by decide, by decide, by decide,
   C10_self_loop_kept [some [JSVal.num 0, .num 0, .num 1]]
     [JSVal.num 0, .num 0, .num 1] 0 (by decide) (by decide) (by decide)⟩

end Viewer
